import Mathlib

/-!
Verification of the transaction-processing core of the portfolio insights
generator.  The Lean definitions below are a shallow embedding of
`src/transaction_processor.py`: raw CSV rows become association lists from
field names to strings, Python `float` values are modelled as exact
rationals, `datetime` values as a six-field record, and the cleaning,
indexing and analytics functions are translated statement by statement.
-/

namespace PortfolioInsights

/-! ### Python string primitives

`str.strip` and `str.upper` are modelled character-wise over the string
data (ASCII case mapping; the repository only manipulates ASCII field
values). -/

/-- Whitespace characters recognised by Python's `str.strip()`. -/
def isPyWS (c : Char) : Bool :=
  c == ' ' || c == '\t' || c == '\n' || c == '\r' ||
    c == Char.ofNat 11 || c == Char.ofNat 12

/-- Python `s.strip()`: remove leading and trailing whitespace. -/
def pyStrip (s : String) : String :=
  ⟨((s.data.dropWhile isPyWS).reverse.dropWhile isPyWS).reverse⟩

/-- Python `s.upper()` (ASCII). -/
def pyUpper (s : String) : String :=
  ⟨s.data.map Char.toUpper⟩

/-! ### Numeric parsing

`int(s)` and `float(s)` strip surrounding whitespace, accept an optional
sign and otherwise require plain (decimal) digit notation; any other
input raises `ValueError`, modelled as `none`.  (Exponent notation and
digit underscores, which the repository's data never uses, are not
modelled.) -/

/-- Numeric value of a digit run. -/
def digitsToNat (ds : List Char) : Nat :=
  ds.foldl (fun n c => 10 * n + (c.toNat - 48)) 0

/-- Split an optional leading sign off a character list. -/
def splitSign : List Char → Int × List Char
  | '-' :: rest => (-1, rest)
  | '+' :: rest => (1, rest)
  | rest => (1, rest)

/-- Python `int(s)` on a string argument. -/
def parseIntPy (s : String) : Option Int :=
  let (sg, cs) := splitSign (pyStrip s).data
  if cs.isEmpty then none
  else if cs.all Char.isDigit then some (sg * digitsToNat cs) else none

/-- Python `float(s)` on a string argument, as an exact rational. -/
def parseFloatPy (s : String) : Option Rat :=
  let (sg, cs) := splitSign (pyStrip s).data
  let ip := cs.takeWhile (fun c => c != '.')
  let rest := cs.drop ip.length
  let checkedFrac : Option (List Char) :=
    match rest with
    | [] => if ip.isEmpty then none else some []
    | '.' :: fp =>
        if (ip.isEmpty && fp.isEmpty) then none
        else if fp.all Char.isDigit then some fp else none
    | _ => none
  match checkedFrac with
  | none => none
  | some fp =>
      if ip.all Char.isDigit then
        some (mkRat
          (sg * (digitsToNat ip * 10 ^ fp.length + digitsToNat fp))
          (10 ^ fp.length))
      else none

/-! ### Datetimes

`datetime.strptime(s, "%Y-%m-%d %H:%M:%S")` produces a second-precision
datetime; chronological comparison is lexicographic on the fields. -/

/-- A second-precision datetime, as produced by `datetime.strptime`. -/
structure DT where
  year : Nat
  month : Nat
  day : Nat
  hour : Nat
  minute : Nat
  second : Nat
deriving DecidableEq

/-- The fields of a datetime as a lexicographically ordered tuple;
chronological order on valid datetimes is exactly this order. -/
def DT.tuple (d : DT) : Nat ×ₗ (Nat ×ₗ (Nat ×ₗ (Nat ×ₗ (Nat ×ₗ Nat)))) :=
  toLex (d.year, toLex (d.month, toLex (d.day,
    toLex (d.hour, toLex (d.minute, d.second)))))

/-- Chronological (non-strict) order on datetimes. -/
def DT.le (a b : DT) : Prop := DT.tuple a ≤ DT.tuple b

/-- Gregorian leap-year test, as in `datetime`. -/
def isLeap (y : Nat) : Bool :=
  (y % 4 == 0 && y % 100 != 0) || y % 400 == 0

/-- Days in a month, as validated by `datetime`. -/
def daysInMonth (y m : Nat) : Nat :=
  if m == 2 then (if isLeap y then 29 else 28)
  else if m == 4 || m == 6 || m == 9 || m == 11 then 30
  else 31

/-- Split a character list on a separator character. -/
def splitOnC (sep : Char) : List Char → List (List Char)
  | [] => [[]]
  | c :: rest =>
      let r := splitOnC sep rest
      if c == sep then [] :: r
      else
        match r with
        | g :: gs => (c :: g) :: gs
        | [] => [[c]]

/-- A run of `minLen` to `maxLen` digits, as matched by `strptime`. -/
def digitField (cs : List Char) (minLen maxLen : Nat) : Option Nat :=
  if minLen ≤ cs.length && cs.length ≤ maxLen && cs.all Char.isDigit then
    some (digitsToNat cs)
  else none

/-- Python `datetime.strptime(s, "%Y-%m-%d %H:%M:%S")`; `none` models the
`ValueError` raised on a malformed or non-calendar timestamp. -/
def parseTimestampPy (s : String) : Option DT :=
  match splitOnC ' ' s.data with
  | [d, t] =>
      match splitOnC '-' d, splitOnC ':' t with
      | [ys, ms, ds], [hs, mins, ss] => do
          let y ← digitField ys 4 4
          let mo ← digitField ms 1 2
          let da ← digitField ds 1 2
          let h ← digitField hs 1 2
          let mi ← digitField mins 1 2
          let se ← digitField ss 1 2
          if 1 ≤ mo && mo ≤ 12 && 1 ≤ da && da ≤ daysInMonth y mo &&
              h ≤ 23 && mi ≤ 59 && se ≤ 59 then
            some ⟨y, mo, da, h, mi, se⟩
          else none
      | _, _ => none
  | _ => none

/-! ### Order helpers for the stable sorts

Python's `list.sort` / `sorted` are stable; `reverse=True` reverses the
comparison while keeping stability.  Both directions are captured by a
boolean comparison on the sort key. -/

section OrderHelpers

variable {κ : Type} [LinearOrder κ]

/-- Ascending comparison on sort keys. -/
def ascLe (a b : κ) : Bool := decide (a ≤ b)

/-- Descending comparison on sort keys (Python's `reverse=True`). -/
def descLe (a b : κ) : Bool := decide (b ≤ a)

end OrderHelpers

/-! ### A stable sort on a key

Python's sort is a stable mergesort; a stable sort with a given (total,
transitive) comparison is unique, so it is modelled by a stable insertion
sort: each element is inserted after every element whose key compares
before-or-equal. -/

section StableSort

variable {α κ : Type} (le : κ → κ → Bool) (k : α → κ)

/-- Insert `x` into `l` after every element whose key is `le` its key. -/
def insOrd (x : α) : List α → List α
  | [] => [x]
  | y :: ys => if le (k y) (k x) then y :: insOrd x ys else x :: y :: ys

/-- Stable sort of `l`, comparing keys with `le`. -/
def sortOn (l : List α) : List α :=
  l.foldl (fun acc x => insOrd le k x acc) []

/-- The output of the sort is ordered by `le` on keys. -/
def KSorted (l : List α) : Prop :=
  l.Pairwise (fun a b => le (k a) (k b) = true)

end StableSort


/-! ### Raw records

A raw CSV row is a Python dict from field name to string value;
insertion order is the header order, and keys are distinct.  It is
modelled as an association list. -/

/-- A raw record: field names mapped to string values, in insertion
order. -/
abbrev Row : Type := List (String × String)

/-- The keys of a record are pairwise distinct (a Python dict). -/
def keysNodup (r : Row) : Prop := (r.map Prod.fst).Nodup

instance (r : Row) : Decidable (keysNodup r) :=
  inferInstanceAs (Decidable (r.map Prod.fst).Nodup)

/-- Python `row.get(f, "")` followed by `.strip()`, then the blankness
test of the missing-field checks in `clean_data`. -/
def blankField (r : Row) (f : String) : Bool :=
  pyStrip ((List.lookup f r).getD "") == ""

/-- The deduplication key `tuple(sorted(row.items()))` from `clean_data`:
the items of the row sorted lexicographically. -/
def canonKey (r : Row) : Row :=
  sortOn ascLe (fun p : String × String => toLex p) r

/-! ### Phase 1 against the specified dedup semantics -/

/-- Decidable mapping equality of two rows: each binding of either row
is a binding of the other.  For rows with distinct keys this is exactly
equality of the field-to-value mappings (`mapEqB_iff`). -/
def mapEqB (r1 r2 : Row) : Bool :=
  r1.all (fun p => List.lookup p.1 r2 == some p.2) &&
    r2.all (fun p => List.lookup p.1 r1 == some p.2)

/-- Modelled from the spec, for comparison with `phase1`: keep a record
exactly when no previously seen record (kept or dropped) has the same
field-to-value mapping. -/
def specKeep (prev : List Row) : List Row → List Row
  | [] => []
  | r :: rs =>
      if prev.any (fun p => mapEqB p r) then specKeep (prev ++ [r]) rs
      else r :: specKeep (prev ++ [r]) rs

/-! ### Phase 1: exact-duplicate removal -/

/-- The dedup loop of `clean_data`: `seen` is the set of canonical keys
already encountered, the second component counts dropped duplicates. -/
def phase1Go (seen : List Row) (dupes : Nat) : List Row → List Row × Nat
  | [] => ([], dupes)
  | r :: rs =>
      if canonKey r ∈ seen then phase1Go seen (dupes + 1) rs
      else
        let rest := phase1Go (canonKey r :: seen) dupes rs
        (r :: rest.1, rest.2)

/-- Phase 1 of `clean_data`: drop exact duplicates, keeping first
occurrences, and count the dropped rows. -/
def phase1 (rows : List Row) : List Row × Nat := phase1Go [] 0 rows

/-! ### Transactions and per-record validation -/

/-- A validated transaction, as built by `clean_data`. -/
structure Txn where
  timestamp : DT
  ticker : String
  action : String
  quantity : Int
  price : Rat
  trader_id : String
deriving DecidableEq

/-- The fields computed inside the `try` block of `clean_data`, in the
source order: ticker, action, price, quantity, timestamp, trader_id.
A `KeyError` (field absent) or `ValueError` (failed conversion) makes
the whole block fail, modelled by `none`. -/
structure Parsed where
  ticker : String
  action : String
  price : Rat
  quantity : Int
  ts : DT
  trader : String
deriving DecidableEq

/-- The `try` block of `clean_data` up to the value checks, sequencing
the conversions in source order. -/
def parseBody (r : Row) : Option Parsed :=
  match List.lookup "ticker" r with
  | none => none
  | some tickerS =>
  match List.lookup "action" r with
  | none => none
  | some actionS =>
  match List.lookup "price" r with
  | none => none
  | some priceS =>
  match parseFloatPy priceS with
  | none => none
  | some price =>
  match List.lookup "quantity" r with
  | none => none
  | some qtyS =>
  match parseIntPy qtyS with
  | none => none
  | some qty =>
  match List.lookup "timestamp" r with
  | none => none
  | some tsS =>
  match parseTimestampPy (pyStrip tsS) with
  | none => none
  | some ts =>
  some ⟨pyUpper (pyStrip tickerS), pyUpper (pyStrip actionS), price, qty, ts,
    pyStrip ((List.lookup "trader_id" r).getD "UNKNOWN")⟩

/-- The transaction dict appended to `clean` for an accepted record. -/
def mkTxn (b : Parsed) : Txn :=
  ⟨b.ts, b.ticker, b.action, b.quantity, b.price, b.trader⟩

/-- Reasons a record can be rejected in phase 2, one per counter of the
cleaning log. -/
inductive Reason where
  | missingTimestamp
  | missingTicker
  | missingPrice
  | missingAction
  | parseError
  | invalidAction
  | negZeroPrice
  | zeroNegQty
deriving DecidableEq

/-- Outcome of validating one deduplicated record. -/
inductive Outcome where
  | accept (t : Txn)
  | reject (why : Reason)
deriving DecidableEq

/-- The per-record validation of `clean_data`: the four missing-field
checks, then the `try` block, then the three value checks, in source
order with early exit. -/
def validateRow (r : Row) : Outcome :=
  if blankField r "timestamp" then .reject .missingTimestamp
  else if blankField r "ticker" then .reject .missingTicker
  else if blankField r "price" then .reject .missingPrice
  else if blankField r "action" then .reject .missingAction
  else
    match parseBody r with
    | none => .reject .parseError
    | some b =>
        if ¬ (b.action = "BUY" ∨ b.action = "SELL") then
          .reject .invalidAction
        else if b.price ≤ 0 then .reject .negZeroPrice
        else if b.quantity ≤ 0 then .reject .zeroNegQty
        else .accept (mkTxn b)

/-! ### The cleaning log and phase 2 -/

/-- The cleaning log: one counter per rejection reason, plus the
duplicate counter from phase 1. -/
structure CleaningLog where
  duplicates : Nat
  missing_timestamp : Nat
  missing_ticker : Nat
  missing_price : Nat
  missing_action : Nat
  invalid_action : Nat
  negative_zero_price : Nat
  zero_negative_qty : Nat
  parse_errors : Nat
deriving DecidableEq

/-- The all-zero cleaning log. -/
def zeroLog : CleaningLog := ⟨0, 0, 0, 0, 0, 0, 0, 0, 0⟩

/-- Increment the counter of one rejection reason. -/
def bump (c : CleaningLog) : Reason → CleaningLog
  | .missingTimestamp => { c with missing_timestamp := c.missing_timestamp + 1 }
  | .missingTicker => { c with missing_ticker := c.missing_ticker + 1 }
  | .missingPrice => { c with missing_price := c.missing_price + 1 }
  | .missingAction => { c with missing_action := c.missing_action + 1 }
  | .parseError => { c with parse_errors := c.parse_errors + 1 }
  | .invalidAction => { c with invalid_action := c.invalid_action + 1 }
  | .negZeroPrice =>
      { c with negative_zero_price := c.negative_zero_price + 1 }
  | .zeroNegQty => { c with zero_negative_qty := c.zero_negative_qty + 1 }

/-- The validation loop of `clean_data` over the deduplicated rows:
accepted transactions in input order, and the rejection counters. -/
def phase2Go : List Row → List Txn × CleaningLog
  | [] => ([], zeroLog)
  | r :: rs =>
      let rest := phase2Go rs
      match validateRow r with
      | .accept t => (t :: rest.1, rest.2)
      | .reject w => (rest.1, bump rest.2 w)

/-- The sort key of `clean.sort(key=lambda x: x["timestamp"])`. -/
def txnTimeKey (t : Txn) : Nat ×ₗ (Nat ×ₗ (Nat ×ₗ (Nat ×ₗ (Nat ×ₗ Nat)))) :=
  DT.tuple t.timestamp

/-- `clean_data(raw_rows)`: deduplicate, validate, count rejections, and
stably sort the accepted transactions by timestamp. -/
def cleanData (rawRows : List Row) : List Txn × CleaningLog :=
  let p1 := phase1 rawRows
  let p2 := phase2Go p1.1
  (sortOn ascLe txnTimeKey p2.1, { p2.2 with duplicates := p1.2 })

/-! ### The ticker index

A Python dict keeps insertion order, so the index is an association
list whose keys appear in order of first occurrence. -/

/-- The ticker index: ticker symbol to its transactions, in index
insertion order. -/
abbrev TickerIndex : Type := List (String × List Txn)

/-- One step of `build_ticker_index`: `index[txn["ticker"]].append(txn)`
on a `defaultdict(list)` (a missing key is appended at the end). -/
def indexAdd (idx : TickerIndex) (tx : Txn) : TickerIndex :=
  match idx with
  | [] => [(tx.ticker, [tx])]
  | (key, l) :: rest =>
      if key == tx.ticker then (key, l ++ [tx]) :: rest
      else (key, l) :: indexAdd rest tx

/-- `build_ticker_index(transactions)`. -/
def buildIndex (txns : List Txn) : TickerIndex := txns.foldl indexAdd []

/-- `get_by_ticker(index, ticker)`: look up the uppercased query,
defaulting to the empty list. -/
def getByTicker (idx : TickerIndex) (ticker : String) : List Txn :=
  (List.lookup (pyUpper ticker) idx).getD []

/-! ### Analytics -/

/-- Dollar volume `quantity * price` of one transaction. -/
def txnVolume (t : Txn) : Rat := mkRat t.quantity 1 * t.price

/-- `total_volume_by_ticker(index)`: per-ticker sum of `qty * price`,
then `sorted(..., key=lambda x: x[1], reverse=True)` (stable). -/
def totalVolumeByTicker (idx : TickerIndex) : List (String × Rat) :=
  sortOn descLe (fun p : String × Rat => p.2)
    (idx.map (fun e => (e.1, (e.2.map txnVolume).sum)))

/-- Net share count of one ticker group (buys minus sells). -/
def netOf (l : List Txn) : Int :=
  l.foldl (fun n t => if t.action == "BUY" then n + t.quantity
    else n - t.quantity) 0

/-- `net_position_by_ticker(index)`: net shares per ticker, sorted by
descending absolute value (stable). -/
def netPositionByTicker (idx : TickerIndex) : List (String × Int) :=
  sortOn descLe (fun p : String × Int => p.2.natAbs)
    (idx.map (fun e => (e.1, netOf e.2)))

/-- Per-key counter increment on an insertion-ordered dict
(`defaultdict(int)` semantics: a new key is appended at the end). -/
def bumpCount {κ : Type} [DecidableEq κ] (l : List (κ × Nat)) (key : κ) :
    List (κ × Nat) :=
  match l with
  | [] => [(key, 1)]
  | (a, n) :: rest =>
      if a = key then (a, n + 1) :: rest else (a, n) :: bumpCount rest key

/-- Per-key rational accumulator on an insertion-ordered dict. -/
def bumpVol (l : List (String × Rat)) (key : String) (v : Rat) :
    List (String × Rat) :=
  match l with
  | [] => [(key, v)]
  | (a, n) :: rest =>
      if a = key then (a, n + v) :: rest else (a, n) :: bumpVol rest key v

/-- `most_active_traders(transactions, top_n=10)`: per-trader counts in
first-seen order, stably sorted by descending count, truncated. -/
def mostActiveTraders (txns : List Txn) (topN : Nat := 10) :
    List (String × Nat) :=
  (sortOn descLe (fun p : String × Nat => p.2)
    (txns.foldl (fun acc t => bumpCount acc t.trader_id) [])).take topN

/-- Python `max(d, key=d.get)` over an insertion-ordered dict: the first
key, in insertion order, whose value is maximal (`max` only replaces the
running best on a strictly greater value).  `none` models the empty
case. -/
def firstMaxKey {κ β : Type} [LinearOrder β] : List (κ × β) → Option κ
  | [] => none
  | e :: es =>
      some ((es.foldl (fun best x => if best.2 < x.2 then x else best) e).1)

/-- `"%Y-%m"` month key of a timestamp. -/
def monthKey (d : DT) : String :=
  pad4 d.year ++ "-" ++ pad2 d.month
where
  pad4 (n : Nat) : String :=
    if n < 10 then "000" ++ toString n
    else if n < 100 then "00" ++ toString n
    else if n < 1000 then "0" ++ toString n
    else toString n
  pad2 (n : Nat) : String := if n < 10 then "0" ++ toString n else toString n

/-- `"%Y-%m-%d"` day key of a timestamp. -/
def dayKey (d : DT) : String :=
  monthKey d ++ "-" ++ monthKey.pad2 d.day

/-- The hourly counter dict of `time_based_analysis`, keys in first-seen
order. -/
def hourlyCounts (txns : List Txn) : List (Nat × Nat) :=
  txns.foldl (fun acc t => bumpCount acc t.timestamp.hour) []

/-- The monthly counter dict of `time_based_analysis`, keys in
first-seen order. -/
def monthlyCounts (txns : List Txn) : List (String × Nat) :=
  txns.foldl (fun acc t => bumpCount acc (monthKey t.timestamp)) []

/-- The per-day dollar-volume dict of `time_based_analysis`, keys in
first-seen order. -/
def dailyVol (txns : List Txn) : List (String × Rat) :=
  txns.foldl (fun acc t => bumpVol acc (dayKey t.timestamp) (txnVolume t)) []

/-- Result of `time_based_analysis`.  `peak_day`/`peak_hour` are `none`
exactly when the code returns the string sentinel for an empty input. -/
structure TimeAnalysis where
  monthly : List (String × Nat)
  hourly : List (Nat × Nat)
  peak_day : Option String
  peak_day_volume : Rat
  peak_hour : Option Nat
  trading_days : Nat
deriving DecidableEq

/-- `time_based_analysis(transactions)`. -/
def timeBasedAnalysis (txns : List Txn) : TimeAnalysis :=
  let daily := dailyVol txns
  let peakDay := firstMaxKey daily
  { monthly := sortOn ascLe (fun p : String × Nat => p.1) (monthlyCounts txns)
    hourly := sortOn ascLe (fun p : Nat × Nat => p.1) (hourlyCounts txns)
    peak_day := peakDay
    peak_day_volume :=
      match peakDay with
      | some d => (List.lookup d daily).getD 0
      | none => 0
    peak_hour := firstMaxKey (hourlyCounts txns)
    trading_days := daily.length }

/-- Python's `round(x, 2)` (round half to even), on exact rationals. -/
def round2 (q : Rat) : Rat :=
  let shifted := q * 100
  let fl : Int := shifted.floor
  let frac := shifted - (fl : Rat)
  let r : Int :=
    if frac < 1 / 2 then fl
    else if 1 / 2 < frac then fl + 1
    else if fl % 2 = 0 then fl else fl + 1
  (r : Rat) / 100

/-- `len({t["trader_id"] for t in transactions})`: the number of
distinct trader ids. -/
def uniqueTradersCount (txns : List Txn) : Nat :=
  (txns.map (fun t => t.trader_id)).toFinset.card

/-- The full analytics summary returned by `get_summary`. -/
structure AnalyticsSummary where
  total_transactions : Nat
  total_buys : Nat
  total_sells : Nat
  total_dollar_volume : Rat
  unique_tickers : List String
  unique_traders_count : Nat
  volume_by_ticker : List (String × Rat)
  net_position_by_ticker : List (String × Int)
  most_active_traders : List (String × Nat)
  time_analysis : TimeAnalysis
deriving DecidableEq

/-- `get_summary(transactions, index)`. -/
def getSummary (txns : List Txn) (idx : TickerIndex) : AnalyticsSummary :=
  let total := txns.length
  let buys := txns.countP (fun t => t.action == "BUY")
  { total_transactions := total
    total_buys := buys
    total_sells := total - buys
    total_dollar_volume := round2 ((txns.map txnVolume).sum)
    unique_tickers := sortOn ascLe (fun s : String => s) (idx.map Prod.fst)
    unique_traders_count := uniqueTradersCount txns
    volume_by_ticker := totalVolumeByTicker idx
    net_position_by_ticker := netPositionByTicker idx
    most_active_traders := mostActiveTraders txns
    time_analysis := timeBasedAnalysis txns }

/-! ### Dynamic semantics of `clean_data`

The dicts appended to `clean` hold a `datetime`, an `int` and a `float`
alongside strings, so feeding the output of `clean_data` back into it
exercises Python's dynamic typing: `.strip()` on a non-string raises an
uncaught `AttributeError`, and `float`/`int`/`strptime` raise an uncaught
`TypeError` on a `datetime` argument (the `except` clause only catches
`ValueError` and `KeyError`).  `dynCleanData` is `clean_data` again, over
dynamically typed values; `Except.error ()` models an uncaught
exception aborting the call. -/

/-- A Python value as stored in a transaction dict. -/
inductive PyVal where
  | str (v : String)
  | int (n : Int)
  | float (q : Rat)
  | dt (d : DT)
deriving DecidableEq

/-- A dynamically typed record (dict with arbitrary values). -/
abbrev DynRow : Type := List (String × PyVal)

/-- The dict literal appended to `clean` for an accepted record, with
the runtime type of each value. -/
def txToRow (t : Txn) : DynRow :=
  [("timestamp", .dt t.timestamp), ("ticker", .str t.ticker),
   ("action", .str t.action), ("quantity", .int t.quantity),
   ("price", .float t.price), ("trader_id", .str t.trader_id)]

/-- Python `v.strip()`: only strings have a `strip` method; anything
else raises `AttributeError`. -/
def pyStripD : PyVal → Except Unit String
  | .str v => .ok (pyStrip v)
  | _ => .error ()

/-- One missing-field check of `clean_data` on a dynamic record:
`not row.get(f, "").strip()`. -/
def blankFieldD (r : DynRow) (f : String) : Except Unit Bool := do
  let t ← pyStripD ((List.lookup f r).getD (.str ""))
  return t == ""

/-- Python `float(v)`: converts strings (`ValueError` on bad syntax,
modelled as `ok none`) and numbers; a `datetime` raises an uncaught
`TypeError`. -/
def pyFloatD : PyVal → Except Unit (Option Rat)
  | .str v => .ok (parseFloatPy v)
  | .int n => .ok (some (mkRat n 1))
  | .float q => .ok (some q)
  | .dt _ => .error ()

/-- Python `int(v)`: strings and numbers convert (`float` truncates
toward zero); a `datetime` raises an uncaught `TypeError`. -/
def pyIntD : PyVal → Except Unit (Option Int)
  | .str v => .ok (parseIntPy v)
  | .int n => .ok (some n)
  | .float q => .ok (some (if q < 0 then -((-q).floor) else q.floor))
  | .dt _ => .error ()

/-- `datetime.strptime(v.strip(), ...)` on a dynamic value: `.strip()`
raises `AttributeError` unless `v` is a string; a parse failure is a
caught `ValueError` (`ok none`). -/
def pyStrptimeD (v : PyVal) : Except Unit (Option DT) := do
  let s ← pyStripD v
  return parseTimestampPy s

/-- Python `v.strip().upper()` on a dynamic value. -/
def pyStripUpperD (v : PyVal) : Except Unit String := do
  let s ← pyStripD v
  return pyUpper s

/-- The `try` block of `clean_data` over a dynamic record:
`ok none` is a caught `ValueError`/`KeyError` (a parse rejection),
`error` an uncaught exception. -/
def parseBodyD (r : DynRow) : Except Unit (Option Parsed) := do
  match List.lookup "ticker" r with
  | none => return none
  | some tickerV =>
  match List.lookup "action" r with
  | none => return none
  | some actionV =>
  match List.lookup "price" r with
  | none => return none
  | some priceV =>
  let ticker ← pyStripUpperD tickerV
  let action ← pyStripUpperD actionV
  match ← pyFloatD priceV with
  | none => return none
  | some price =>
  match List.lookup "quantity" r with
  | none => return none
  | some qtyV =>
  match ← pyIntD qtyV with
  | none => return none
  | some qty =>
  match List.lookup "timestamp" r with
  | none => return none
  | some tsV =>
  match ← pyStrptimeD tsV with
  | none => return none
  | some ts =>
  let trader ← pyStripD ((List.lookup "trader_id" r).getD (.str "UNKNOWN"))
  return some ⟨ticker, action, price, qty, ts, trader⟩

/-- The per-record validation of `clean_data` on a dynamic record. -/
def validateRowD (r : DynRow) : Except Unit Outcome := do
  if ← blankFieldD r "timestamp" then return .reject .missingTimestamp
  else if ← blankFieldD r "ticker" then return .reject .missingTicker
  else if ← blankFieldD r "price" then return .reject .missingPrice
  else if ← blankFieldD r "action" then return .reject .missingAction
  else
    match ← parseBodyD r with
    | none => return .reject .parseError
    | some b =>
        if ¬ (b.action = "BUY" ∨ b.action = "SELL") then
          return .reject .invalidAction
        else if b.price ≤ 0 then return .reject .negZeroPrice
        else if b.quantity ≤ 0 then return .reject .zeroNegQty
        else return .accept (mkTxn b)

/-- The dedup key on a dynamic record: `sorted(row.items())` compares
the name components first and, with the distinct keys of a dict, never
compares two values, so it sorts by field name. -/
def canonKeyD (r : DynRow) : DynRow :=
  sortOn ascLe (fun p : String × PyVal => p.1) r

/-- Phase 1 of `clean_data` on dynamic records. -/
def phase1GoD (seen : List DynRow) (dupes : Nat) :
    List DynRow → List DynRow × Nat
  | [] => ([], dupes)
  | r :: rs =>
      if canonKeyD r ∈ seen then phase1GoD seen (dupes + 1) rs
      else
        let rest := phase1GoD (canonKeyD r :: seen) dupes rs
        (r :: rest.1, rest.2)

/-- The validation loop of `clean_data` on dynamic records; an uncaught
exception in any iteration aborts the whole loop. -/
def phase2GoD : List DynRow → Except Unit (List Txn × CleaningLog)
  | [] => .ok ([], zeroLog)
  | r :: rs => do
      let o ← validateRowD r
      let rest ← phase2GoD rs
      match o with
      | .accept t => return (t :: rest.1, rest.2)
      | .reject w => return (rest.1, bump rest.2 w)

/-- `clean_data` on dynamically typed records. -/
def dynCleanData (rows : List DynRow) : Except Unit (List Txn × CleaningLog) := do
  let p1 := phase1GoD [] 0 rows
  let p2 ← phase2GoD p1.1
  return (sortOn ascLe txnTimeKey p2.1, { p2.2 with duplicates := p1.2 })


/-! ### Concrete fixtures used by witnesses and counterexamples -/

/-- A raw row with every field present, a lowercase ticker and action,
and a whitespace-only trader id. -/
def rowBlankTrader : Row :=
  [("timestamp", "2024-01-01 10:00:00"), ("ticker", "aapl"),
   ("action", "buy"), ("quantity", "5"), ("price", "10.5"),
   ("trader_id", "   ")]

/-- Duplicate of `rowDupA` up to field insertion order. -/
def rowDupA : Row := [("a", "1"), ("b", "2")]

/-- Same mapping as `rowDupA`, other insertion order. -/
def rowDupB : Row := [("b", "2"), ("a", "1")]

/-- Differs from `rowDupA` in one value. -/
def rowDupC : Row := [("a", "1"), ("b", "3")]

/-- Concrete input for the C3 witness. -/
def c3Rows : List Row := [rowDupA, rowDupB, rowDupC]


/-- The keys of an insertion-ordered counter dict, in order of first
occurrence. -/
def firstSeen (l : List String) : List String :=
  l.foldl (fun acc x => if x ∈ acc then acc else acc ++ [x]) []

/-- A transaction fixture on ticker AAPL. -/
def txnA : Txn := ⟨⟨2024, 1, 1, 10, 0, 0⟩, "AAPL", "BUY", 5, mkRat 21 2, ""⟩

/-- Fixture traded at hour 15 of the first day. -/
def tx15 : Txn := ⟨⟨2024, 1, 1, 15, 0, 0⟩, "AAPL", "BUY", 1, mkRat 1 1, "t1"⟩

/-- Fixture traded at hour 3 of the following day. -/
def tx03 : Txn := ⟨⟨2024, 1, 2, 3, 0, 0⟩, "AAPL", "SELL", 1, mkRat 1 1, "t2"⟩

/-- A raw row whose quantity is non-numeric and whose other required
fields are present and non-blank. -/
def rowBadQty : Row :=
  [("timestamp", "2024-01-01 10:00:00"), ("ticker", "AAPL"),
   ("price", "10.5"), ("action", "BUY"), ("quantity", "abc")]

/-! ## Lemmas and theorems -/

theorem DT.tuple_inj {a b : DT} (h : DT.tuple a = DT.tuple b) : a = b := by
  cases a; cases b
  simp only [DT.tuple, toLex_inj, Prod.mk.injEq] at h
  simp_all

section OrderHelperLemmas

variable {κ : Type} [LinearOrder κ]

theorem ascLe_total (a b : κ) : ascLe a b = true ∨ ascLe b a = true := by
  simpa [ascLe] using le_total a b

theorem ascLe_trans (a b c : κ) (h1 : ascLe a b = true)
    (h2 : ascLe b c = true) : ascLe a c = true := by
  simp only [ascLe, decide_eq_true_eq] at *
  exact le_trans h1 h2

theorem descLe_total (a b : κ) : descLe a b = true ∨ descLe b a = true := by
  simpa [descLe] using (le_total a b).symm

theorem descLe_trans (a b c : κ) (h1 : descLe a b = true)
    (h2 : descLe b c = true) : descLe a c = true := by
  simp only [descLe, decide_eq_true_eq] at *
  exact le_trans h2 h1

end OrderHelperLemmas

section StableSortLemmas

variable {α κ : Type} (le : κ → κ → Bool) (k : α → κ)

theorem insOrd_perm (x : α) (l : List α) :
    List.Perm (insOrd le k x l) (x :: l) := by
  induction l with
  | nil => exact List.Perm.refl _
  | cons y ys ih =>
      simp only [insOrd]
      split
      · exact ((ih).cons y).trans (List.Perm.swap x y ys)
      · exact List.Perm.refl _

theorem foldl_insOrd_perm (l : List α) :
    ∀ acc : List α,
      List.Perm (l.foldl (fun acc x => insOrd le k x acc) acc) (acc ++ l) := by
  induction l with
  | nil => intro acc; simp
  | cons x xs ih =>
      intro acc
      have h1 : List.Perm
          ((x :: xs).foldl (fun acc x => insOrd le k x acc) acc)
          (insOrd le k x acc ++ xs) := ih _
      have h2 : List.Perm (insOrd le k x acc ++ xs) ((x :: acc) ++ xs) :=
        (insOrd_perm le k x acc).append_right xs
      have h3 : List.Perm (x :: (acc ++ xs)) (acc ++ x :: xs) :=
        List.perm_middle.symm
      exact (h1.trans h2).trans h3

theorem sortOn_perm (l : List α) : List.Perm (sortOn le k l) l := by
  simpa using foldl_insOrd_perm le k l []

theorem mem_insOrd {a x : α} {l : List α} :
    a ∈ insOrd le k x l ↔ a = x ∨ a ∈ l := by
  have := (insOrd_perm le k x l).mem_iff (a := a)
  simpa using this

theorem insOrd_sorted
    (htot : ∀ a b, le a b = true ∨ le b a = true)
    (htr : ∀ a b c, le a b = true → le b c = true → le a c = true)
    (x : α) (l : List α) (hs : KSorted le k l) :
    KSorted le k (insOrd le k x l) := by
  induction l with
  | nil => simp [KSorted, insOrd]
  | cons y ys ih =>
      simp only [KSorted, List.pairwise_cons] at hs
      obtain ⟨hy, hys⟩ := hs
      simp only [insOrd]
      split
      · rename_i hle
        simp only [KSorted, List.pairwise_cons]
        refine ⟨?_, ih hys⟩
        intro b hb
        rcases (mem_insOrd le k).mp hb with rfl | hb
        · exact hle
        · exact hy b hb
      · rename_i hle
        have hxy : le (k x) (k y) = true := by
          rcases htot (k y) (k x) with h | h
          · exact absurd h hle
          · exact h
        simp only [KSorted, List.pairwise_cons]
        constructor
        · intro b hb
          rcases List.mem_cons.mp hb with rfl | hb
          · exact hxy
          · exact htr _ _ _ hxy (hy b hb)
        · exact ⟨hy, hys⟩

theorem foldl_insOrd_sorted
    (htot : ∀ a b, le a b = true ∨ le b a = true)
    (htr : ∀ a b c, le a b = true → le b c = true → le a c = true)
    (l : List α) :
    ∀ acc : List α, KSorted le k acc →
      KSorted le k (l.foldl (fun acc x => insOrd le k x acc) acc) := by
  induction l with
  | nil => intro acc h; exact h
  | cons x xs ih =>
      intro acc h
      exact ih _ (insOrd_sorted le k htot htr x acc h)

theorem sortOn_sorted
    (htot : ∀ a b, le a b = true ∨ le b a = true)
    (htr : ∀ a b c, le a b = true → le b c = true → le a c = true)
    (l : List α) : KSorted le k (sortOn le k l) :=
  foldl_insOrd_sorted le k htot htr l [] (by simp [KSorted])

theorem insOrd_split (x : α) (l : List α) :
    ∃ l₁ l₂, l = l₁ ++ l₂ ∧ insOrd le k x l = l₁ ++ x :: l₂ ∧
      ∀ y ∈ l₁, le (k y) (k x) = true := by
  induction l with
  | nil => exact ⟨[], [], rfl, rfl, by simp⟩
  | cons y ys ih =>
      simp only [insOrd]
      split
      · rename_i hle
        obtain ⟨l₁, l₂, h1, h2, h3⟩ := ih
        refine ⟨y :: l₁, l₂, by simp [h1], by simp [h2], ?_⟩
        intro z hz
        rcases List.mem_cons.mp hz with rfl | hz
        · exact hle
        · exact h3 z hz
      · exact ⟨[], y :: ys, rfl, rfl, by simp⟩

end StableSortLemmas

section StableSortFilter

variable {α κ : Type} [DecidableEq κ] (le : κ → κ → Bool) (k : α → κ)

theorem insOrd_filter_ne (x : α) (l : List α) (v : κ) (hx : ¬ k x = v) :
    (insOrd le k x l).filter (fun a => decide (k a = v)) =
      l.filter (fun a => decide (k a = v)) := by
  obtain ⟨l₁, l₂, h1, h2, _⟩ := insOrd_split le k x l
  rw [h2, h1]
  simp [List.filter_append, List.filter_cons, hx]

theorem insOrd_filter_eq
    (htot : ∀ a b, le a b = true ∨ le b a = true)
    (x : α) (l : List α) (v : κ) (hx : k x = v) (hs : KSorted le k l) :
    (insOrd le k x l).filter (fun a => decide (k a = v)) =
      l.filter (fun a => decide (k a = v)) ++ [x] := by
  induction l with
  | nil => simp [insOrd, hx]
  | cons y ys ih =>
      simp only [KSorted, List.pairwise_cons] at hs
      obtain ⟨hy, hys⟩ := hs
      simp only [insOrd]
      split
      · rename_i hle
        rw [List.filter_cons, List.filter_cons]
        split
        · simp [ih hys]
        · simp [ih hys]
      · rename_i hle
        have hall : ∀ a ∈ y :: ys, ¬ (k a = v) := by
          intro a ha hav
          rcases List.mem_cons.mp ha with rfl | ha
          · have : le (k a) (k x) = true := by
              rw [hav, ← hx] at *
              rcases htot (k x) (k x) with h | h <;> exact h
            exact hle this
          · have h1 : le (k y) (k a) = true := hy a ha
            have : le (k y) (k x) = true := by rw [hx, ← hav]; exact h1
            exact hle this
        have hnil : (y :: ys).filter (fun a => decide (k a = v)) = [] := by
          rw [List.filter_eq_nil_iff]
          intro a ha
          simpa using hall a ha
        rw [List.filter_cons]
        simp [hx, hnil]

theorem foldl_insOrd_filter
    (htot : ∀ a b, le a b = true ∨ le b a = true)
    (htr : ∀ a b c, le a b = true → le b c = true → le a c = true)
    (v : κ) (l : List α) :
    ∀ acc : List α, KSorted le k acc →
      (l.foldl (fun acc x => insOrd le k x acc) acc).filter
          (fun a => decide (k a = v)) =
        acc.filter (fun a => decide (k a = v)) ++
          l.filter (fun a => decide (k a = v)) := by
  induction l with
  | nil => intro acc _; simp
  | cons x xs ih =>
      intro acc hacc
      have hstep := ih (insOrd le k x acc)
        (insOrd_sorted le k htot htr x acc hacc)
      calc ((x :: xs).foldl (fun acc x => insOrd le k x acc) acc).filter
            (fun a => decide (k a = v))
          = (xs.foldl (fun acc x => insOrd le k x acc)
              (insOrd le k x acc)).filter (fun a => decide (k a = v)) := rfl
        _ = (insOrd le k x acc).filter (fun a => decide (k a = v)) ++
              xs.filter (fun a => decide (k a = v)) := hstep
        _ = acc.filter (fun a => decide (k a = v)) ++
              (x :: xs).filter (fun a => decide (k a = v)) := by
            by_cases hx : k x = v
            · rw [insOrd_filter_eq le k htot x acc v hx hacc]
              simp [List.filter_cons, hx]
            · rw [insOrd_filter_ne le k x acc v hx]
              simp [List.filter_cons, hx]

theorem sortOn_filter
    (htot : ∀ a b, le a b = true ∨ le b a = true)
    (htr : ∀ a b c, le a b = true → le b c = true → le a c = true)
    (v : κ) (l : List α) :
    (sortOn le k l).filter (fun a => decide (k a = v)) =
      l.filter (fun a => decide (k a = v)) := by
  simpa using foldl_insOrd_filter le k htot htr v l [] (by simp [KSorted])

end StableSortFilter

/-! ### Lookup on records with distinct keys -/

theorem lookup_eq_some_of_mem {r : Row} {f v : String} (h : keysNodup r)
    (hm : (f, v) ∈ r) : List.lookup f r = some v := by
  induction r with
  | nil => cases hm
  | cons p rest ih =>
      obtain ⟨a, b⟩ := p
      simp only [keysNodup, List.map_cons, List.nodup_cons] at h
      rcases List.mem_cons.mp hm with heq | hmem
      · cases heq
        simp [List.lookup]
      · have hfa : f ≠ a := by
          rintro rfl
          exact h.1 (List.mem_map_of_mem Prod.fst hmem)
        simpa [List.lookup, beq_eq_decide, hfa] using ih h.2 hmem

theorem mem_of_lookup_eq_some {r : Row} {f v : String}
    (h : List.lookup f r = some v) : (f, v) ∈ r := by
  induction r with
  | nil => simp [List.lookup] at h
  | cons p rest ih =>
      obtain ⟨a, b⟩ := p
      by_cases hfa : f = a
      · subst hfa
        simp [List.lookup] at h
        simp [h]
      · simp [List.lookup, beq_eq_decide, hfa] at h
        exact List.mem_cons_of_mem _ (ih h)

theorem lookup_eq_none_iff {r : Row} {f : String} :
    List.lookup f r = none ↔ f ∉ r.map Prod.fst := by
  induction r with
  | nil => simp [List.lookup]
  | cons p rest ih =>
      obtain ⟨a, b⟩ := p
      by_cases hfa : f = a
      · subst hfa
        simp [List.lookup]
      · simp [List.lookup, beq_eq_decide, hfa, ih, List.mem_map]

theorem lookup_eq_of_perm {r1 r2 : Row} (h1 : keysNodup r1)
    (hp : List.Perm r1 r2) (f : String) :
    List.lookup f r1 = List.lookup f r2 := by
  have h2 : keysNodup r2 := ((hp.map Prod.fst).nodup_iff).mp h1
  cases hl : List.lookup f r1 with
  | some v =>
      exact (lookup_eq_some_of_mem h2
        (hp.mem_iff.mp (mem_of_lookup_eq_some hl))).symm
  | none =>
      have hf : f ∉ r1.map Prod.fst := lookup_eq_none_iff.mp hl
      have hf2 : f ∉ r2.map Prod.fst := fun hc =>
        hf ((hp.map Prod.fst).mem_iff.mpr hc)
      exact (lookup_eq_none_iff.mpr hf2).symm

theorem perm_of_lookup_eq {r1 r2 : Row} (h1 : keysNodup r1)
    (h2 : keysNodup r2)
    (h : ∀ f, List.lookup f r1 = List.lookup f r2) : List.Perm r1 r2 := by
  have d1 : r1.Nodup := List.Nodup.of_map _ h1
  have d2 : r2.Nodup := List.Nodup.of_map _ h2
  refine (List.perm_ext_iff_of_nodup d1 d2).mpr ?_
  rintro ⟨f, v⟩
  constructor
  · intro hm
    exact mem_of_lookup_eq_some ((h f) ▸ lookup_eq_some_of_mem h1 hm)
  · intro hm
    exact mem_of_lookup_eq_some ((h f).symm ▸ lookup_eq_some_of_mem h2 hm)

/-! ### The canonical dedup key characterises mapping equality -/

theorem canonKey_perm (r : Row) : List.Perm (canonKey r) r :=
  sortOn_perm _ _ r

theorem canonKey_sorted (r : Row) :
    KSorted ascLe (fun p : String × String => toLex p) (canonKey r) :=
  sortOn_sorted _ _ (fun a b => ascLe_total a b) (fun a b c => ascLe_trans a b c)
    r

/-- Two rows with distinct keys have the same canonical dedup key exactly
when they are equal as field-to-value mappings. -/
theorem canonKey_eq_iff {r1 r2 : Row} (h1 : keysNodup r1)
    (h2 : keysNodup r2) :
    canonKey r1 = canonKey r2 ↔
      ∀ f, List.lookup f r1 = List.lookup f r2 := by
  constructor
  · intro h f
    have hp : List.Perm r1 r2 :=
      (canonKey_perm r1).symm.trans (h ▸ canonKey_perm r2)
    exact lookup_eq_of_perm h1 hp f
  · intro h
    have hp : List.Perm r1 r2 := perm_of_lookup_eq h1 h2 h
    have hck : List.Perm (canonKey r1) (canonKey r2) :=
      ((canonKey_perm r1).trans hp).trans (canonKey_perm r2).symm
    haveI : IsAntisymm (String × String)
        (fun a b => ascLe (toLex a) (toLex b) = true) := by
      constructor
      intro a b hab hba
      simp only [ascLe, decide_eq_true_eq] at hab hba
      exact toLex_inj.mp (le_antisymm hab hba)
    exact List.eq_of_perm_of_sorted hck (canonKey_sorted r1) (canonKey_sorted r2)

theorem mapEqB_iff {r1 r2 : Row} (h1 : keysNodup r1) (h2 : keysNodup r2) :
    mapEqB r1 r2 = true ↔ ∀ f, List.lookup f r1 = List.lookup f r2 := by
  simp only [mapEqB, Bool.and_eq_true, List.all_eq_true, beq_iff_eq]
  constructor
  · rintro ⟨ha, hb⟩ f
    cases hl : List.lookup f r1 with
    | some v =>
        exact (ha (f, v) (mem_of_lookup_eq_some hl)).symm
    | none =>
        cases hl2 : List.lookup f r2 with
        | some w =>
            have := hb (f, w) (mem_of_lookup_eq_some hl2)
            rw [hl] at this
            cases this
        | none => rfl
  · intro h
    constructor
    · rintro ⟨f, v⟩ hm
      rw [← h f]
      exact lookup_eq_some_of_mem h1 hm
    · rintro ⟨f, v⟩ hm
      rw [h f]
      exact lookup_eq_some_of_mem h2 hm

theorem specKeep_length_le (prev : List Row) (rows : List Row) :
    (specKeep prev rows).length ≤ rows.length := by
  induction rows generalizing prev with
  | nil => simp [specKeep]
  | cons r rs ih =>
      simp only [specKeep]
      split
      · exact le_trans (ih _) (Nat.le_succ _)
      · simpa using ih (prev ++ [r])

theorem phase1Go_eq_specKeep (rows : List Row) :
    ∀ (seen prev : List Row) (dupes : Nat),
      (∀ r ∈ rows, keysNodup r) → (∀ p ∈ prev, keysNodup p) →
      (∀ key, key ∈ seen ↔ ∃ p ∈ prev, canonKey p = key) →
      phase1Go seen dupes rows =
        (specKeep prev rows,
          dupes + (rows.length - (specKeep prev rows).length)) := by
  induction rows with
  | nil => intro seen prev dupes _ _ _; simp [phase1Go, specKeep]
  | cons r rs ih =>
      intro seen prev dupes hrows hprev hseen
      have hr : keysNodup r := hrows r (List.mem_cons_self r rs)
      have hrs : ∀ x ∈ rs, keysNodup x := fun x hx =>
        hrows x (List.mem_cons_of_mem r hx)
      have hiff : (canonKey r ∈ seen) ↔
          (prev.any (fun p => mapEqB p r) = true) := by
        rw [hseen]
        simp only [List.any_eq_true]
        constructor
        · rintro ⟨p, hp, hck⟩
          exact ⟨p, hp, (mapEqB_iff (hprev p hp) hr).mpr
            ((canonKey_eq_iff (hprev p hp) hr).mp hck)⟩
        · rintro ⟨p, hp, hm⟩
          exact ⟨p, hp, (canonKey_eq_iff (hprev p hp) hr).mpr
            ((mapEqB_iff (hprev p hp) hr).mp hm)⟩
      have hprev' : ∀ p ∈ prev ++ [r], keysNodup p := by
        intro p hp
        rcases List.mem_append.mp hp with hin | hin
        · exact hprev p hin
        · simp only [List.mem_singleton] at hin
          subst hin; exact hr
      by_cases hc : canonKey r ∈ seen
      · have hany : prev.any (fun p => mapEqB p r) = true := hiff.mp hc
        have hseen' : ∀ key, key ∈ seen ↔
            ∃ p ∈ prev ++ [r], canonKey p = key := by
          intro key
          constructor
          · intro hk
            obtain ⟨p, hp, he⟩ := (hseen key).mp hk
            exact ⟨p, List.mem_append_left _ hp, he⟩
          · rintro ⟨p, hp, he⟩
            rcases List.mem_append.mp hp with hin | hin
            · exact (hseen key).mpr ⟨p, hin, he⟩
            · simp only [List.mem_singleton] at hin
              subst hin; subst he; exact hc
        have hrec := ih seen (prev ++ [r]) (dupes + 1) hrs hprev' hseen'
        have hlen := specKeep_length_le (prev ++ [r]) rs
        simp only [phase1Go, if_pos hc, specKeep, if_pos hany, hrec,
          List.length_cons]
        rw [Prod.mk.injEq]
        refine ⟨rfl, ?_⟩
        omega
      · have hany : ¬ prev.any (fun p => mapEqB p r) = true := fun h =>
          hc (hiff.mpr h)
        have hseen' : ∀ key, key ∈ canonKey r :: seen ↔
            ∃ p ∈ prev ++ [r], canonKey p = key := by
          intro key
          constructor
          · intro hk
            rcases List.mem_cons.mp hk with he | hk2
            · exact ⟨r, List.mem_append_right _ (List.mem_singleton.mpr rfl),
                he.symm⟩
            · obtain ⟨p, hp, he⟩ := (hseen key).mp hk2
              exact ⟨p, List.mem_append_left _ hp, he⟩
          · rintro ⟨p, hp, he⟩
            rcases List.mem_append.mp hp with hin | hin
            · exact List.mem_cons_of_mem _ ((hseen key).mpr ⟨p, hin, he⟩)
            · simp only [List.mem_singleton] at hin
              subst hin; subst he
              exact List.mem_cons_self _ _
        have hrec := ih (canonKey r :: seen) (prev ++ [r]) dupes hrs hprev'
          hseen'
        have hlen := specKeep_length_le (prev ++ [r]) rs
        simp only [phase1Go, if_neg hc, specKeep, if_neg hany, hrec,
          List.length_cons]
        rw [Prod.mk.injEq]
        refine ⟨rfl, ?_⟩
        omega

/-! ### Per-record classification of the validation cascade

Each rejection counter is characterised by the conjunction of its own
failing check with the success of every check that the source applies
before it; this is the first-failing-check-wins semantics of the spec. -/
theorem validateRow_eq_missingTimestamp (r : Row) :
    validateRow r = Outcome.reject .missingTimestamp ↔
      blankField r "timestamp" = true := by
  unfold validateRow
  (repeat' split) <;> simp_all <;> tauto

theorem validateRow_eq_missingTicker (r : Row) :
    validateRow r = Outcome.reject .missingTicker ↔
      (!blankField r "timestamp" && blankField r "ticker") = true := by
  unfold validateRow
  (repeat' split) <;> simp_all <;> tauto

theorem validateRow_eq_invalidAction (r : Row) :
    validateRow r = Outcome.reject .invalidAction ↔
      (!blankField r "timestamp" && !blankField r "ticker" &&
        !blankField r "price" && !blankField r "action" &&
        (match parseBody r with
          | some b => decide (¬ (b.action = "BUY" ∨ b.action = "SELL"))
          | none => false)) = true := by
  unfold validateRow
  (repeat' split) <;> simp_all <;> tauto

theorem validateRow_eq_negZeroPrice (r : Row) :
    validateRow r = Outcome.reject .negZeroPrice ↔
      (!blankField r "timestamp" && !blankField r "ticker" &&
        !blankField r "price" && !blankField r "action" &&
        (match parseBody r with
          | some b => decide (b.action = "BUY" ∨ b.action = "SELL") &&
              decide (b.price ≤ 0)
          | none => false)) = true := by
  unfold validateRow
  (repeat' split) <;> simp_all <;> tauto

theorem validateRow_eq_zeroNegQty (r : Row) :
    validateRow r = Outcome.reject .zeroNegQty ↔
      (!blankField r "timestamp" && !blankField r "ticker" &&
        !blankField r "price" && !blankField r "action" &&
        (match parseBody r with
          | some b => decide (b.action = "BUY" ∨ b.action = "SELL") &&
              decide (0 < b.price) && decide (b.quantity ≤ 0)
          | none => false)) = true := by
  unfold validateRow
  (repeat' split) <;> simp_all <;> tauto

theorem validateRow_eq_parseError (r : Row) :
    validateRow r = Outcome.reject .parseError ↔
      (!blankField r "timestamp" && !blankField r "ticker" &&
        !blankField r "price" && !blankField r "action" &&
        (parseBody r).isNone) = true := by
  unfold validateRow
  (repeat' split) <;> simp_all <;> tauto

theorem validateRow_accept_iff (r : Row) (t : Txn) :
    validateRow r = Outcome.accept t ↔
      ((!blankField r "timestamp" && !blankField r "ticker" &&
        !blankField r "price" && !blankField r "action") = true ∧
       ∃ b, parseBody r = some b ∧
         (b.action = "BUY" ∨ b.action = "SELL") ∧ 0 < b.price ∧
         0 < b.quantity ∧ t = mkTxn b) := by
  unfold validateRow
  (repeat' split) <;> simp_all <;> tauto


theorem validateRow_eq_missingPrice (r : Row) :
    validateRow r = Outcome.reject .missingPrice ↔
      (!blankField r "timestamp" && !blankField r "ticker" &&
        blankField r "price") = true := by
  unfold validateRow
  (repeat' split) <;> simp_all <;> tauto

theorem validateRow_eq_missingAction (r : Row) :
    validateRow r = Outcome.reject .missingAction ↔
      (!blankField r "timestamp" && !blankField r "ticker" &&
        !blankField r "price" && blankField r "action") = true := by
  unfold validateRow
  (repeat' split) <;> simp_all <;> tauto

theorem validateRow_acceptFun (r : Row) :
    (match validateRow r with
      | Outcome.accept t => some t
      | Outcome.reject _ => none) =
      (if blankField r "timestamp" || blankField r "ticker" ||
          blankField r "price" || blankField r "action" then none
       else match parseBody r with
         | none => none
         | some b =>
             if decide (b.action = "BUY" ∨ b.action = "SELL") &&
                 decide (0 < b.price) && decide (0 < b.quantity) then
               some (mkTxn b)
             else none) := by
  cases hv : validateRow r with
  | accept t =>
      obtain ⟨hblank, b, hb, hact, hp, hq, ht⟩ := (validateRow_accept_iff r t).mp hv
      simp only [Bool.and_eq_true, Bool.not_eq_true'] at hblank
      obtain ⟨⟨⟨h1, h2⟩, h3⟩, h4⟩ := hblank
      simp [h1, h2, h3, h4, hb, hact, hp, hq, ht]
  | reject w =>
      cases hbl : (blankField r "timestamp" || blankField r "ticker" ||
          blankField r "price" || blankField r "action") with
      | true => simp [hbl]
      | false =>
          simp only [Bool.or_eq_false_iff] at hbl
          obtain ⟨⟨⟨h1, h2⟩, h3⟩, h4⟩ := hbl
          cases hpb : parseBody r with
          | none => simp [h1, h2, h3, h4, hpb]
          | some b =>
              cases hcond : (decide (b.action = "BUY" ∨ b.action = "SELL") &&
                  decide (0 < b.price) && decide (0 < b.quantity)) with
              | false =>
                  have hnc : ¬ (((b.action = "BUY" ∨ b.action = "SELL") ∧
                      0 < b.price) ∧ 0 < b.quantity) := by
                    intro hc
                    simp [hc.1.1, hc.1.2, hc.2] at hcond
                  simp [h1, h2, h3, h4, hpb, hnc]
              | true =>
                  exfalso
                  simp only [Bool.and_eq_true, decide_eq_true_eq] at hcond
                  obtain ⟨⟨hc1, hc2⟩, hc3⟩ := hcond
                  have hacc : validateRow r = Outcome.accept (mkTxn b) :=
                    (validateRow_accept_iff r (mkTxn b)).mpr
                      ⟨by simp [h1, h2, h3, h4], b, hpb, hc1, hc2, hc3, rfl⟩
                  rw [hv] at hacc
                  cases hacc

theorem phase2Go_eq (rows : List Row) :
    phase2Go rows =
      (rows.filterMap (fun r => match validateRow r with
          | Outcome.accept t => some t
          | Outcome.reject _ => none),
        { duplicates := 0
          missing_timestamp := rows.countP
            (fun r => validateRow r == Outcome.reject .missingTimestamp)
          missing_ticker := rows.countP
            (fun r => validateRow r == Outcome.reject .missingTicker)
          missing_price := rows.countP
            (fun r => validateRow r == Outcome.reject .missingPrice)
          missing_action := rows.countP
            (fun r => validateRow r == Outcome.reject .missingAction)
          invalid_action := rows.countP
            (fun r => validateRow r == Outcome.reject .invalidAction)
          negative_zero_price := rows.countP
            (fun r => validateRow r == Outcome.reject .negZeroPrice)
          zero_negative_qty := rows.countP
            (fun r => validateRow r == Outcome.reject .zeroNegQty)
          parse_errors := rows.countP
            (fun r => validateRow r == Outcome.reject .parseError) }) := by
  induction rows with
  | nil => rfl
  | cons r rs ih =>
      cases hv : validateRow r with
      | accept t =>
          simp [phase2Go, ih, hv, List.countP_cons, List.filterMap_cons,
            beq_iff_eq]
      | reject w =>
          cases w <;>
            simp [phase2Go, ih, hv, List.countP_cons, List.filterMap_cons,
              bump, beq_iff_eq, zeroLog]


/-- C1: on the deduplicated sequence, `clean_data` applies the validation
checks in exactly the spec order (blank timestamp, then ticker, then
price, then action; then the parse step; then the action-value, price
and quantity checks), the first failing check rejects the record with
exactly that check's counter incremented (each counter counts precisely
the records whose earlier checks all pass and whose own check fails, so
subsequent checks are skipped), and a record passing all checks is
appended, in order, to the accepted sequence. -/
theorem c1_validation_order_first_fail (rawRows : List Row) :
    (cleanData rawRows).2.missing_timestamp =
      ((phase1 rawRows).1).countP (fun r => blankField r "timestamp") ∧
    (cleanData rawRows).2.missing_ticker =
      ((phase1 rawRows).1).countP (fun r =>
        !blankField r "timestamp" && blankField r "ticker") ∧
    (cleanData rawRows).2.missing_price =
      ((phase1 rawRows).1).countP (fun r =>
        !blankField r "timestamp" && !blankField r "ticker" &&
          blankField r "price") ∧
    (cleanData rawRows).2.missing_action =
      ((phase1 rawRows).1).countP (fun r =>
        !blankField r "timestamp" && !blankField r "ticker" &&
          !blankField r "price" && blankField r "action") ∧
    (cleanData rawRows).2.parse_errors =
      ((phase1 rawRows).1).countP (fun r =>
        !blankField r "timestamp" && !blankField r "ticker" &&
          !blankField r "price" && !blankField r "action" &&
          (parseBody r).isNone) ∧
    (cleanData rawRows).2.invalid_action =
      ((phase1 rawRows).1).countP (fun r =>
        !blankField r "timestamp" && !blankField r "ticker" &&
          !blankField r "price" && !blankField r "action" &&
          (match parseBody r with
            | some b => decide (¬ (b.action = "BUY" ∨ b.action = "SELL"))
            | none => false)) ∧
    (cleanData rawRows).2.negative_zero_price =
      ((phase1 rawRows).1).countP (fun r =>
        !blankField r "timestamp" && !blankField r "ticker" &&
          !blankField r "price" && !blankField r "action" &&
          (match parseBody r with
            | some b => decide (b.action = "BUY" ∨ b.action = "SELL") &&
                decide (b.price ≤ 0)
            | none => false)) ∧
    (cleanData rawRows).2.zero_negative_qty =
      ((phase1 rawRows).1).countP (fun r =>
        !blankField r "timestamp" && !blankField r "ticker" &&
          !blankField r "price" && !blankField r "action" &&
          (match parseBody r with
            | some b => decide (b.action = "BUY" ∨ b.action = "SELL") &&
                decide (0 < b.price) && decide (b.quantity ≤ 0)
            | none => false)) ∧
    (phase2Go (phase1 rawRows).1).1 =
      ((phase1 rawRows).1).filterMap (fun r =>
        if blankField r "timestamp" || blankField r "ticker" ||
            blankField r "price" || blankField r "action" then none
        else match parseBody r with
          | none => none
          | some b =>
              if decide (b.action = "BUY" ∨ b.action = "SELL") &&
                  decide (0 < b.price) && decide (0 < b.quantity) then
                some (mkTxn b)
              else none) := by
  have he := phase2Go_eq (phase1 rawRows).1
  refine ⟨?_, ?_, ?_, ?_, ?_, ?_, ?_, ?_, ?_⟩
  · simp only [cleanData, he]
    exact List.countP_congr (fun r _ => by rw [beq_iff_eq]; exact validateRow_eq_missingTimestamp r)
  · simp only [cleanData, he]
    exact List.countP_congr (fun r _ => by rw [beq_iff_eq]; exact validateRow_eq_missingTicker r)
  · simp only [cleanData, he]
    exact List.countP_congr (fun r _ => by rw [beq_iff_eq]; exact validateRow_eq_missingPrice r)
  · simp only [cleanData, he]
    exact List.countP_congr (fun r _ => by rw [beq_iff_eq]; exact validateRow_eq_missingAction r)
  · simp only [cleanData, he]
    exact List.countP_congr (fun r _ => by rw [beq_iff_eq]; exact validateRow_eq_parseError r)
  · simp only [cleanData, he]
    exact List.countP_congr (fun r _ => by rw [beq_iff_eq]; exact validateRow_eq_invalidAction r)
  · simp only [cleanData, he]
    exact List.countP_congr (fun r _ => by rw [beq_iff_eq]; exact validateRow_eq_negZeroPrice r)
  · simp only [cleanData, he]
    exact List.countP_congr (fun r _ => by rw [beq_iff_eq]; exact validateRow_eq_zeroNegQty r)
  · rw [he]
    exact List.filterMap_congr (fun r _ => validateRow_acceptFun r)

/-- C2: for every input, the transaction sequence produced by
`clean_data` is non-decreasing in timestamp, and the transactions of any
fixed timestamp appear in the same relative order as in the pre-sort
accepted sequence (whose order is that of the records they came from):
the sort is stable. -/
theorem c2_output_sorted_and_stable (rawRows : List Row) :
    ((cleanData rawRows).1.Pairwise
      (fun a b => DT.le a.timestamp b.timestamp)) ∧
    ∀ ts : DT, (cleanData rawRows).1.filter
        (fun t => decide (t.timestamp = ts)) =
      (phase2Go (phase1 rawRows).1).1.filter
        (fun t => decide (t.timestamp = ts)) := by
  constructor
  · have hs := sortOn_sorted ascLe txnTimeKey
      (fun a b => ascLe_total a b) (fun a b c => ascLe_trans a b c)
      (phase2Go (phase1 rawRows).1).1
    simp only [cleanData]
    refine List.Pairwise.imp ?_ hs
    intro a b h
    simp only [ascLe, decide_eq_true_eq] at h
    exact h
  · intro ts
    have hf := sortOn_filter ascLe txnTimeKey
      (fun a b => ascLe_total a b) (fun a b c => ascLe_trans a b c)
      (DT.tuple ts) (phase2Go (phase1 rawRows).1).1
    have hcong : ∀ (l : List Txn), l.filter
        (fun a => decide (txnTimeKey a = DT.tuple ts)) =
        l.filter (fun t => decide (t.timestamp = ts)) := by
      intro l
      refine List.filter_congr ?_
      intro t _
      have : (txnTimeKey t = DT.tuple ts) ↔ (t.timestamp = ts) := by
        constructor
        · intro h; exact DT.tuple_inj h
        · intro h; rw [txnTimeKey, h]
      simp [this]
    simp only [cleanData]
    rw [← hcong, ← hcong, hf]



/-- C3: a raw record is dropped as a duplicate exactly when its full
field-to-value mapping equals that of some earlier record (`specKeep`,
written from the spec, keeps a record exactly when no earlier record has
an equal mapping); the first occurrence is retained, the duplicates
counter is the number of dropped records, and the comparison ignores
field insertion order while comparing values exactly, since `mapEqB`
agrees with field-by-field lookup equality. -/
theorem c3_dedup_mapping_equality (rawRows : List Row)
    (h : ∀ r ∈ rawRows, keysNodup r) :
    phase1 rawRows =
      (specKeep [] rawRows,
        rawRows.length - (specKeep [] rawRows).length) ∧
    ∀ r1 ∈ rawRows, ∀ r2 ∈ rawRows,
      (mapEqB r1 r2 = true ↔ ∀ f, List.lookup f r1 = List.lookup f r2) := by
  constructor
  · have hmain := phase1Go_eq_specKeep rawRows [] [] 0 h (by simp) (by simp)
    simpa [phase1] using hmain
  · intro r1 h1 r2 h2
    exact mapEqB_iff (h r1 h1) (h r2 h2)

/-- Witness for C3 at a concrete input: the second row repeats the first
with its fields in the other insertion order, the third row differs in
one value only. -/
theorem c3_dedup_mapping_equality_witness :
    (∀ r ∈ c3Rows, keysNodup r) ∧
    (phase1 c3Rows =
      (specKeep [] c3Rows, c3Rows.length - (specKeep [] c3Rows).length) ∧
    ∀ r1 ∈ c3Rows, ∀ r2 ∈ c3Rows,
      (mapEqB r1 r2 = true ↔ ∀ f, List.lookup f r1 = List.lookup f r2)) :=
  ⟨by decide, c3_dedup_mapping_equality c3Rows (by decide)⟩

theorem lookupG_eq_some_of_mem {β : Type} {l : List (String × β)} {f : String}
    {v : β} (h : (l.map Prod.fst).Nodup) (hm : (f, v) ∈ l) :
    List.lookup f l = some v := by
  induction l with
  | nil => cases hm
  | cons p rest ih =>
      obtain ⟨a, b⟩ := p
      simp only [List.map_cons, List.nodup_cons] at h
      rcases List.mem_cons.mp hm with heq | hmem
      · cases heq
        simp [List.lookup]
      · have hfa : f ≠ a := by
          rintro rfl
          exact h.1 (List.mem_map_of_mem Prod.fst hmem)
        simpa [List.lookup, beq_eq_decide, hfa] using ih h.2 hmem

theorem firstSeen_aux_mem (l : List String) :
    ∀ (acc : List String) (x : String),
      x ∈ l.foldl (fun acc x => if x ∈ acc then acc else acc ++ [x]) acc ↔
        x ∈ acc ∨ x ∈ l := by
  induction l with
  | nil => intro acc x; simp
  | cons y ys ih =>
      intro acc x
      simp only [List.foldl_cons]
      by_cases hy : y ∈ acc
      · rw [if_pos hy, ih]
        constructor
        · rintro (h | h)
          · exact Or.inl h
          · exact Or.inr (List.mem_cons_of_mem _ h)
        · rintro (h | h)
          · exact Or.inl h
          · rcases List.mem_cons.mp h with rfl | h
            · exact Or.inl hy
            · exact Or.inr h
      · rw [if_neg hy, ih]
        simp [List.mem_append, List.mem_cons]
        tauto

theorem firstSeen_mem (l : List String) (x : String) :
    x ∈ firstSeen l ↔ x ∈ l := by
  rw [firstSeen, firstSeen_aux_mem]
  simp

theorem firstSeen_append_singleton (l : List String) (x : String) :
    firstSeen (l ++ [x]) =
      if x ∈ firstSeen l then firstSeen l else firstSeen l ++ [x] := by
  rw [firstSeen, List.foldl_append]
  rfl

theorem indexAdd_map_fst (idx : TickerIndex) (tx : Txn) :
    (indexAdd idx tx).map Prod.fst =
      if tx.ticker ∈ idx.map Prod.fst then idx.map Prod.fst
      else idx.map Prod.fst ++ [tx.ticker] := by
  induction idx with
  | nil => simp [indexAdd]
  | cons e rest ih =>
      obtain ⟨key, l⟩ := e
      by_cases hk : key = tx.ticker
      · subst hk
        simp [indexAdd]
      · have hb : (key == tx.ticker) = false := by
          simp [beq_eq_decide, hk]
        simp only [indexAdd, hb, Bool.false_eq_true, if_false, List.map_cons,
          ih]
        have hne : ¬ tx.ticker = key := fun h => hk h.symm
        by_cases hmem : tx.ticker ∈ rest.map Prod.fst
        · simp [hmem, hne]
        · simp [hmem, hne]

theorem indexAdd_lookup (idx : TickerIndex) (tx : Txn) (t : String) :
    List.lookup t (indexAdd idx tx) =
      if t = tx.ticker then
        some (((List.lookup tx.ticker idx).getD []) ++ [tx])
      else List.lookup t idx := by
  induction idx with
  | nil =>
      by_cases ht : t = tx.ticker
      · simp [indexAdd, List.lookup, beq_eq_decide, ht]
      · simp [indexAdd, List.lookup, beq_eq_decide, ht]
  | cons e rest ih =>
      obtain ⟨key, l⟩ := e
      by_cases hk : key = tx.ticker
      · by_cases ht : t = key
        · simp [indexAdd, List.lookup, beq_eq_decide, hk, ht]
        · have hnt : ¬ t = tx.ticker := by rw [← hk]; exact ht
          simp [indexAdd, List.lookup, beq_eq_decide, hk, ht, hnt]
      · by_cases ht : t = key
        · have hnt : ¬ t = tx.ticker := by rw [ht]; exact hk
          simp [indexAdd, List.lookup, beq_eq_decide, hk, ht, hnt]
        · have hkt : ¬ tx.ticker = key := fun h => hk h.symm
          simp [indexAdd, List.lookup, beq_eq_decide, hk, ht, hkt, ih]

theorem buildIndex_go (txns : List Txn) :
    ∀ (idx : TickerIndex) (processed : List Txn),
      (idx.map Prod.fst).Nodup →
      idx.map Prod.fst = firstSeen (processed.map (fun t => t.ticker)) →
      (∀ t : String, List.lookup t idx =
        if t ∈ processed.map (fun x => x.ticker) then
          some (processed.filter (fun x => x.ticker == t))
        else none) →
      (((txns.foldl indexAdd idx).map Prod.fst).Nodup ∧
       (txns.foldl indexAdd idx).map Prod.fst =
         firstSeen ((processed ++ txns).map (fun t => t.ticker)) ∧
       ∀ t : String, List.lookup t (txns.foldl indexAdd idx) =
        if t ∈ (processed ++ txns).map (fun x => x.ticker) then
          some ((processed ++ txns).filter (fun x => x.ticker == t))
        else none) := by
  induction txns with
  | nil =>
      intro idx processed h1 h2 h3
      simp only [List.foldl_nil, List.append_nil]
      exact ⟨h1, h2, h3⟩
  | cons tx rest ih =>
      intro idx processed h1 h2 h3
      have h1a : ((indexAdd idx tx).map Prod.fst).Nodup := by
        rw [indexAdd_map_fst]
        split
        · exact h1
        · rename_i hmem
          rw [← List.concat_eq_append]
          exact List.Nodup.concat hmem h1
      have h2a : (indexAdd idx tx).map Prod.fst =
          firstSeen ((processed ++ [tx]).map (fun t => t.ticker)) := by
        have hms : (processed ++ [tx]).map (fun t => t.ticker) =
            processed.map (fun t => t.ticker) ++ [tx.ticker] := by
          simp
        rw [indexAdd_map_fst, hms, firstSeen_append_singleton, ← h2]
      have h3a : ∀ t, List.lookup t (indexAdd idx tx) =
          if t ∈ (processed ++ [tx]).map (fun x => x.ticker) then
            some ((processed ++ [tx]).filter (fun x => x.ticker == t))
          else none := by
        intro t
        rw [indexAdd_lookup]
        by_cases ht : t = tx.ticker
        · rw [if_pos ht]
          have hc : t ∈ (processed ++ [tx]).map (fun x => x.ticker) := by
            simp [ht]
          rw [if_pos hc, h3 tx.ticker]
          have htt : (tx.ticker == t) = true := by
            simp [beq_eq_decide, ht]
          by_cases hp : tx.ticker ∈ processed.map (fun x => x.ticker)
          · rw [if_pos hp]
            rw [List.filter_append]
            simp only [List.filter_cons, List.filter_nil, htt,
              Option.getD_some, if_true]
            rw [ht]
          · rw [if_neg hp]
            have hfe : processed.filter (fun x => x.ticker == t) = [] := by
              rw [List.filter_eq_nil_iff]
              intro a ha hc2
              apply hp
              have : a.ticker = t := by
                simpa [beq_eq_decide] using hc2
              rw [← ht, ← this]
              exact List.mem_map_of_mem (fun x => x.ticker) ha
            rw [List.filter_append]
            simp only [List.filter_cons, List.filter_nil, htt, if_true,
              Option.getD_none, hfe]
        · rw [if_neg ht, h3 t]
          have hmeq : (t ∈ (processed ++ [tx]).map (fun x => x.ticker)) ↔
              (t ∈ processed.map (fun x => x.ticker)) := by
            simp [List.map_append, ht]
          have htf : (tx.ticker == t) = false := by
            simp only [beq_eq_decide, decide_eq_false_iff_not]
            exact fun h => ht h.symm
          by_cases hp : t ∈ processed.map (fun x => x.ticker)
          · rw [if_pos hp, if_pos (hmeq.mpr hp)]
            rw [List.filter_append]
            simp [List.filter_cons, htf]
          · rw [if_neg hp, if_neg (fun hc => hp (hmeq.mp hc))]
      have hrec := ih (indexAdd idx tx) (processed ++ [tx]) h1a h2a h3a
      simpa [List.append_assoc] using hrec

theorem buildIndex_inv (txns : List Txn) :
    ((buildIndex txns).map Prod.fst).Nodup ∧
    (buildIndex txns).map Prod.fst =
      firstSeen (txns.map (fun t => t.ticker)) ∧
    ∀ t : String, List.lookup t (buildIndex txns) =
      if t ∈ txns.map (fun x => x.ticker) then
        some (txns.filter (fun x => x.ticker == t))
      else none := by
  have h := buildIndex_go txns [] [] (by simp) (by rfl)
    (by intro t; simp [List.lookup])
  simpa [buildIndex] using h

theorem parseBody_trader {r : Row} {b : Parsed} (h : parseBody r = some b) :
    b.trader = pyStrip ((List.lookup "trader_id" r).getD "UNKNOWN") := by
  unfold parseBody at h
  (repeat' split at h) <;> simp_all
  rw [← h]

theorem firstMaxFold {κ β : Type} [LinearOrder β] (es : List (κ × β)) :
    ∀ e : κ × β, ∃ l1 l2,
      e :: es =
        l1 ++ (es.foldl (fun best x => if best.2 < x.2 then x else best) e)
          :: l2 ∧
      (∀ x ∈ l1,
        x.2 < (es.foldl (fun best x => if best.2 < x.2 then x else best) e).2) ∧
      (∀ x ∈ l2,
        x.2 ≤ (es.foldl (fun best x => if best.2 < x.2 then x else best) e).2) := by
  induction es with
  | nil => exact fun e => ⟨[], [], rfl, by simp, by simp⟩
  | cons x es ih =>
      intro e
      by_cases hlt : e.2 < x.2
      · obtain ⟨l1, l2, h1, h2, h3⟩ := ih x
        have hfold : (x :: es).foldl
            (fun best x => if best.2 < x.2 then x else best) e =
            es.foldl (fun best x => if best.2 < x.2 then x else best) x := by
          simp [List.foldl_cons, if_pos hlt]
        rw [hfold]
        have hxr : x.2 ≤
            (es.foldl (fun best x => if best.2 < x.2 then x else best) x).2 := by
          cases l1 with
          | nil =>
              have : x = (es.foldl
                  (fun best x => if best.2 < x.2 then x else best) x) := by
                have := h1
                simp only [List.nil_append] at this
                exact (List.cons.injEq _ _ _ _).mp this |>.1
              rw [← this]
          | cons a t =>
              have hax : a = x := by
                have := h1
                simp only [List.cons_append] at this
                exact ((List.cons.injEq _ _ _ _).mp this).1.symm
              subst hax
              exact le_of_lt (h2 a (List.mem_cons_self a t))
        refine ⟨e :: l1, l2, ?_, ?_, h3⟩
        · rw [List.cons_append, ← h1]
        · intro y hy
          rcases List.mem_cons.mp hy with rfl | hy
          · exact lt_of_lt_of_le hlt hxr
          · exact h2 y hy
      · obtain ⟨l1, l2, h1, h2, h3⟩ := ih e
        have hfold : (x :: es).foldl
            (fun best x => if best.2 < x.2 then x else best) e =
            es.foldl (fun best x => if best.2 < x.2 then x else best) e := by
          simp [List.foldl_cons, if_neg hlt]
        rw [hfold]
        cases l1 with
        | nil =>
            have hre : es.foldl
                (fun best x => if best.2 < x.2 then x else best) e = e := by
              have := h1
              simp only [List.nil_append] at this
              exact (((List.cons.injEq _ _ _ _).mp this).1).symm
            have hes : es = l2 := by
              have := h1
              simp only [List.nil_append] at this
              exact ((List.cons.injEq _ _ _ _).mp this).2
            refine ⟨[], x :: es, by simp [hre], by simp, ?_⟩
            intro y hy
            rcases List.mem_cons.mp hy with rfl | hy
            · rw [hre]; exact not_lt.mp hlt
            · rw [hes] at hy
              exact h3 y hy
        | cons a t =>
            have hae : a = e := by
              have := h1
              simp only [List.cons_append] at this
              exact ((List.cons.injEq _ _ _ _).mp this).1.symm
            have hes : es = t ++ (es.foldl
                (fun best x => if best.2 < x.2 then x else best) e) :: l2 := by
              have := h1
              simp only [List.cons_append] at this
              exact ((List.cons.injEq _ _ _ _).mp this).2
            have hear : e.2 < (es.foldl
                (fun best x => if best.2 < x.2 then x else best) e).2 := by
              have := h2 a (List.mem_cons_self _ _)
              rwa [hae] at this
            refine ⟨e :: x :: t, l2, ?_, ?_, h3⟩
            · rw [List.cons_append, List.cons_append, ← hes]
            · intro y hy
              rcases List.mem_cons.mp hy with rfl | hy
              · exact hear
              · rcases List.mem_cons.mp hy with rfl | hy
                · exact lt_of_le_of_lt (not_lt.mp hlt) hear
                · exact h2 y (List.mem_cons_of_mem _ hy)

/-- C6: in every summary produced by `get_summary`, total_buys plus
total_sells equals total_transactions; total_transactions is the length
of the transaction sequence and total_buys counts the BUY
transactions. -/
theorem c6_buys_plus_sells (txns : List Txn) (idx : TickerIndex) :
    (getSummary txns idx).total_buys + (getSummary txns idx).total_sells =
      (getSummary txns idx).total_transactions ∧
    (getSummary txns idx).total_transactions = txns.length ∧
    (getSummary txns idx).total_buys =
      txns.countP (fun t => t.action == "BUY") := by
  refine ⟨?_, rfl, rfl⟩
  have hle : txns.countP (fun t => t.action == "BUY") ≤ txns.length :=
    List.countP_le_length _
  simp only [getSummary]
  omega

/-- C8: `get_by_ticker` returns the sequence stored under the uppercased
query, and the empty sequence (never a failure) when the uppercased
query is not a key; the lowercase query "aapl" gives the same result as
"AAPL". -/
theorem c8_lookup_uppercase (idx : TickerIndex) (query : String) :
    (∀ l, List.lookup (pyUpper query) idx = some l →
      getByTicker idx query = l) ∧
    (List.lookup (pyUpper query) idx = none → getByTicker idx query = []) ∧
    getByTicker idx "aapl" = getByTicker idx "AAPL" := by
  refine ⟨?_, ?_, ?_⟩
  · intro l h
    simp [getByTicker, h]
  · intro h
    simp [getByTicker, h]
  · have hup : pyUpper "aapl" = pyUpper "AAPL" := rfl
    simp [getByTicker, hup]

/-- Witness for C8 at a concrete one-entry index. -/
theorem c8_lookup_uppercase_witness :
    List.lookup (pyUpper "aapl") (buildIndex [txnA]) = some [txnA] ∧
    getByTicker (buildIndex [txnA]) "aapl" = [txnA] :=
  ⟨by decide, (c8_lookup_uppercase (buildIndex [txnA]) "aapl").1 [txnA] (by decide)⟩

/-- C9: a present but whitespace-only trader_id survives validation as
the empty string, not the "UNKNOWN" sentinel, which applies only when
the field is absent; the summary counts trader ids with set semantics,
so a transaction with the empty-string trader id contributes one more
distinct value to unique_traders_count. -/
theorem c9_blank_trader_id :
    (∀ (r : Row) (s : String) (tx : Txn),
      List.lookup "trader_id" r = some s → pyStrip s = "" →
      validateRow r = .accept tx → tx.trader_id = "") ∧
    (∀ (r : Row) (tx : Txn),
      List.lookup "trader_id" r = none →
      validateRow r = .accept tx → tx.trader_id = "UNKNOWN") ∧
    (∀ (txns : List Txn) (idx : TickerIndex),
      (getSummary txns idx).unique_traders_count = uniqueTradersCount txns) ∧
    (∀ (txns : List Txn) (tx : Txn), tx.trader_id = "" →
      "" ∉ txns.map (fun t => t.trader_id) →
      uniqueTradersCount (txns ++ [tx]) = uniqueTradersCount txns + 1) := by
  refine ⟨?_, ?_, fun _ _ => rfl, ?_⟩
  · intro r s tx hlk hblank hacc
    obtain ⟨_, b, hb, _, _, _, ht⟩ := (validateRow_accept_iff r tx).mp hacc
    have htr := parseBody_trader hb
    rw [hlk] at htr
    subst ht
    simpa [mkTxn, htr] using hblank
  · intro r tx hlk hacc
    obtain ⟨_, b, hb, _, _, _, ht⟩ := (validateRow_accept_iff r tx).mp hacc
    have htr := parseBody_trader hb
    rw [hlk] at htr
    subst ht
    simpa [mkTxn] using htr
  · intro txns tx htx hnm
    unfold uniqueTradersCount
    rw [List.map_append, List.toFinset_append]
    have hsingle : ([tx].map (fun t => t.trader_id)).toFinset = {("" : String)} := by
      simp [htx]
    rw [hsingle, Finset.union_comm, ← Finset.insert_eq,
      Finset.card_insert_of_not_mem]
    rw [List.mem_toFinset]
    exact hnm

/-- C10: a record whose timestamp, ticker, price and action are present
and non-blank but whose quantity is absent, blank or non-numeric is
rejected by the parse step with the parse-errors counter incremented
(there is no dedicated missing-quantity counter, and no quantity check
runs before the parse step). -/
theorem c10_bad_quantity_parse_error (r : Row)
    (hts : ∃ s, List.lookup "timestamp" r = some s ∧ pyStrip s ≠ "")
    (htk : ∃ s, List.lookup "ticker" r = some s ∧ pyStrip s ≠ "")
    (hpr : ∃ s, List.lookup "price" r = some s ∧ pyStrip s ≠ "")
    (hac : ∃ s, List.lookup "action" r = some s ∧ pyStrip s ≠ "")
    (hq : match List.lookup "quantity" r with
      | none => True
      | some s => parseIntPy s = none) :
    validateRow r = .reject .parseError := by
  obtain ⟨tsS, hts1, hts2⟩ := hts
  obtain ⟨tkS, htk1, htk2⟩ := htk
  obtain ⟨prS, hpr1, hpr2⟩ := hpr
  obtain ⟨acS, hac1, hac2⟩ := hac
  have hb1 : blankField r "timestamp" = false := by
    simp [blankField, hts1, hts2]
  have hb2 : blankField r "ticker" = false := by
    simp [blankField, htk1, htk2]
  have hb3 : blankField r "price" = false := by
    simp [blankField, hpr1, hpr2]
  have hb4 : blankField r "action" = false := by
    simp [blankField, hac1, hac2]
  have hpb : parseBody r = none := by
    unfold parseBody
    rw [htk1, hac1, hpr1]
    cases hpf : parseFloatPy prS with
    | none => simp [hpf]
    | some p =>
        cases hlq : List.lookup "quantity" r with
        | none => simp [hpf, hlq]
        | some qs =>
            rw [hlq] at hq
            simp [hpf, hlq, hq]
  simp [validateRow, hb1, hb2, hb3, hb4, hpb]

/-- C7: `total_volume_by_ticker` maps each ticker of the index to the
sum of quantity times price over that ticker's transactions, the index
keys are in order of first occurrence in the (time-sorted) sequence,
and the result is ordered by descending volume with tickers of equal
volume kept in index order (stable sort). -/
theorem c7_volume_by_ticker_ranking (txns : List Txn) :
    (∀ p ∈ totalVolumeByTicker (buildIndex txns),
      p.2 = ((txns.filter (fun t => t.ticker == p.1)).map txnVolume).sum) ∧
    List.Perm ((totalVolumeByTicker (buildIndex txns)).map Prod.fst)
      ((buildIndex txns).map Prod.fst) ∧
    (buildIndex txns).map Prod.fst =
      firstSeen (txns.map (fun t => t.ticker)) ∧
    ((totalVolumeByTicker (buildIndex txns)).Pairwise
      (fun a b => b.2 ≤ a.2)) ∧
    ∀ v : Rat, ((totalVolumeByTicker (buildIndex txns)).filter
        (fun p => decide (p.2 = v))).map Prod.fst =
      (((buildIndex txns).map
          (fun e => (e.1, (e.2.map txnVolume).sum))).filter
        (fun p => decide (p.2 = v))).map Prod.fst := by
  obtain ⟨hnd, hfst, hlk⟩ := buildIndex_inv txns
  refine ⟨?_, ?_, hfst, ?_, ?_⟩
  · intro p hp
    have hperm : List.Perm (totalVolumeByTicker (buildIndex txns))
        ((buildIndex txns).map (fun e => (e.1, (e.2.map txnVolume).sum))) :=
      sortOn_perm _ _ _
    have hp2 : p ∈ (buildIndex txns).map
        (fun e => (e.1, (e.2.map txnVolume).sum)) := hperm.mem_iff.mp hp
    obtain ⟨e, he, hpe⟩ := List.mem_map.mp hp2
    have hle : List.lookup e.1 (buildIndex txns) = some e.2 :=
      lookupG_eq_some_of_mem hnd (by cases e; exact he)
    have hmem : e.1 ∈ txns.map (fun x => x.ticker) := by
      rw [← firstSeen_mem, ← hfst]
      exact List.mem_map_of_mem Prod.fst he
    rw [hlk e.1, if_pos hmem] at hle
    have hgrp : e.2 = txns.filter (fun x => x.ticker == e.1) :=
      Option.some.injEq _ _ ▸ hle.symm ▸ rfl
    subst hpe
    simp only []
    rw [hgrp]
  · have hpm := (sortOn_perm descLe (fun p : String × Rat => p.2)
        ((buildIndex txns).map
          (fun e => (e.1, (e.2.map txnVolume).sum)))).map Prod.fst
    simpa [List.map_map] using hpm
  · have hs := sortOn_sorted descLe (fun p : String × Rat => p.2)
      (fun a b => descLe_total a b) (fun a b c => descLe_trans a b c)
      ((buildIndex txns).map (fun e => (e.1, (e.2.map txnVolume).sum)))
    refine List.Pairwise.imp ?_ hs
    intro a b h
    simpa [descLe] using h
  · intro v
    have hf := sortOn_filter descLe (fun p : String × Rat => p.2)
      (fun a b => descLe_total a b) (fun a b c => descLe_trans a b c)
      v ((buildIndex txns).map (fun e => (e.1, (e.2.map txnVolume).sum)))
    rw [totalVolumeByTicker, hf]


theorem bumpCount_ne_nil {κ : Type} [DecidableEq κ] (l : List (κ × Nat))
    (key : κ) : bumpCount l key ≠ [] := by
  cases l with
  | nil => simp [bumpCount]
  | cons p rest =>
      obtain ⟨a, n⟩ := p
      simp only [bumpCount]
      split <;> simp

theorem hourlyCounts_ne_nil {txns : List Txn} (h : txns ≠ []) :
    hourlyCounts txns ≠ [] := by
  cases txns with
  | nil => exact absurd rfl h
  | cons t ts =>
      have haux : ∀ (l : List Txn) (acc : List (Nat × Nat)), acc ≠ [] →
          l.foldl (fun acc t => bumpCount acc t.timestamp.hour) acc ≠ [] := by
        intro l
        induction l with
        | nil => intro acc hacc; simpa using hacc
        | cons x xs ih =>
            intro acc hacc
            simp only [List.foldl_cons]
            exact ih _ (bumpCount_ne_nil _ _)
      unfold hourlyCounts
      simp only [List.foldl_cons]
      exact haux ts _ (bumpCount_ne_nil _ _)

/-- C4 fails as stated: with transactions at hours 15 then 3 on
consecutive (sorted) timestamps, the hours are tied at one transaction
each, yet `peak_hour` is 15, the first-seen hour, not the smallest tied
hour 3. -/
theorem c4_peak_hour_counterexample :
    hourlyCounts [tx15, tx03] = [(15, 1), (3, 1)] ∧
    (timeBasedAnalysis [tx15, tx03]).peak_hour = some 15 ∧
    (timeBasedAnalysis [tx15, tx03]).peak_hour ≠ some 3 ∧
    (3 : Nat) < 15 :=
  ⟨rfl, rfl, by decide, by decide⟩

/-- C4 amended: for a non-empty transaction sequence, `peak_hour` is the
hour of the entry of the hourly counter (whose keys are in order of
first occurrence in the sequence) that strictly beats every
earlier-first-seen hour and weakly beats every later one — the first
maximal hour in first-seen order, not the smallest tied hour. -/
theorem c4_peak_hour_first_seen (txns : List Txn) (h : txns ≠ []) :
    ∃ l1 e l2, hourlyCounts txns = l1 ++ e :: l2 ∧
      (timeBasedAnalysis txns).peak_hour = some e.1 ∧
      (∀ x ∈ l1, x.2 < e.2) ∧ ∀ x ∈ l2, x.2 ≤ e.2 := by
  cases hh : hourlyCounts txns with
  | nil => exact absurd hh (hourlyCounts_ne_nil h)
  | cons e0 es =>
      obtain ⟨l1, l2, h1, h2, h3⟩ := firstMaxFold es e0
      refine ⟨l1, _, l2, ?_, ?_, h2, h3⟩
      · exact h1
      · show firstMaxKey (hourlyCounts txns) = _
        rw [hh]
        rfl

/-- Witness for the amended C4 at the concrete two-transaction input. -/
theorem c4_peak_hour_first_seen_witness :
    ([tx15, tx03] ≠ ([] : List Txn)) ∧
    (∃ l1 e l2, hourlyCounts [tx15, tx03] = l1 ++ e :: l2 ∧
      (timeBasedAnalysis [tx15, tx03]).peak_hour = some e.1 ∧
      (∀ x ∈ l1, x.2 < e.2) ∧ ∀ x ∈ l2, x.2 ≤ e.2) :=
  ⟨by simp, c4_peak_hour_first_seen [tx15, tx03] (by simp)⟩

theorem phase1GoD_head (r : DynRow) (rs : List DynRow) :
    ∃ rest d, phase1GoD [] 0 (r :: rs) = (r :: rest, d) := by
  simp only [phase1GoD]
  rw [if_neg (List.not_mem_nil _)]
  exact ⟨_, _, rfl⟩

theorem phase2GoD_dt_head (t : Txn) (rest : List DynRow) :
    phase2GoD (txToRow t :: rest) = .error () := rfl

/-- C5 fails as stated: one valid raw row cleans to one transaction, and
running `clean_data` on that output aborts with a type error instead of
returning the same sequence with zero counters. -/
theorem c5_idempotence_counterexample :
    (cleanData [rowBlankTrader]).1 = [txnA] ∧
    dynCleanData ((cleanData [rowBlankTrader]).1.map txToRow) =
      .error () :=
  ⟨rfl, rfl⟩

/-- C5 amended: a second run of `clean_data` on its own output returns
the same (empty) sequence and an all-zero log only when that output is
empty; on a non-empty output it raises an uncaught type error, because
cleaned records hold datetime, int and float values on which the
string-only blank-field checks fail. -/
theorem c5_second_run_type_error (rawRows : List Row) :
    ((cleanData rawRows).1 = [] →
      dynCleanData ((cleanData rawRows).1.map txToRow) =
        .ok ([], zeroLog)) ∧
    ((cleanData rawRows).1 ≠ [] →
      dynCleanData ((cleanData rawRows).1.map txToRow) = .error ()) := by
  constructor
  · intro h
    rw [h]
    rfl
  · intro h
    cases hout : (cleanData rawRows).1 with
    | nil => exact absurd hout h
    | cons t ts =>
        obtain ⟨rest, d, hp1⟩ :=
          phase1GoD_head (txToRow t) (ts.map txToRow)
        show dynCleanData (txToRow t :: ts.map txToRow) = .error ()
        simp only [dynCleanData, hp1]
        rw [phase2GoD_dt_head]
        rfl

/-- Witness for the amended C5 at a concrete input with one valid row. -/
theorem c5_second_run_type_error_witness :
    (cleanData [rowBlankTrader]).1 ≠ [] ∧
    dynCleanData ((cleanData [rowBlankTrader]).1.map txToRow) =
      .error () :=
  ⟨by decide, (c5_second_run_type_error [rowBlankTrader]).2 (by decide)⟩

/-- Witness for C9 at a concrete record with a whitespace-only
trader_id. -/
theorem c9_blank_trader_id_witness :
    List.lookup "trader_id" rowBlankTrader = some "   " ∧
    pyStrip "   " = "" ∧
    validateRow rowBlankTrader = .accept txnA ∧
    txnA.trader_id = "" ∧
    uniqueTradersCount ([tx15] ++ [txnA]) = uniqueTradersCount [tx15] + 1 :=
  ⟨rfl, rfl, by decide,
   c9_blank_trader_id.1 rowBlankTrader "   " txnA rfl rfl (by decide),
   c9_blank_trader_id.2.2.2 [tx15] txnA rfl (by decide)⟩

/-- Witness for C10 at a concrete record with a non-numeric quantity. -/
theorem c10_bad_quantity_parse_error_witness :
    (∃ s, List.lookup "timestamp" rowBadQty = some s ∧ pyStrip s ≠ "") ∧
    (∃ s, List.lookup "quantity" rowBadQty = some s ∧ parseIntPy s = none) ∧
    validateRow rowBadQty = .reject .parseError :=
  ⟨⟨"2024-01-01 10:00:00", rfl, by decide⟩,
   ⟨"abc", rfl, by decide⟩,
   c10_bad_quantity_parse_error rowBadQty
     ⟨"2024-01-01 10:00:00", rfl, by decide⟩
     ⟨"AAPL", rfl, by decide⟩
     ⟨"10.5", rfl, by decide⟩
     ⟨"BUY", rfl, by decide⟩
     (by decide : parseIntPy "abc" = none)⟩


/-- Witness for C7 at a concrete two-transaction input: the single AAPL
entry carries the summed volume. -/
theorem c7_volume_by_ticker_ranking_witness :
    (("AAPL", mkRat 2 1) ∈ totalVolumeByTicker (buildIndex [tx15, tx03])) ∧
    ("AAPL", mkRat 2 1).2 =
      ((([tx15, tx03] : List Txn).filter
        (fun t => t.ticker == ("AAPL", mkRat 2 1).1)).map txnVolume).sum := by
  have hvb : totalVolumeByTicker (buildIndex [tx15, tx03]) =
      [("AAPL", mkRat 2 1)] := by
    with_unfolding_all rfl
  have hm : ("AAPL", mkRat 2 1) ∈ totalVolumeByTicker
      (buildIndex [tx15, tx03]) := by
    rw [hvb]
    exact List.mem_singleton.mpr rfl
  exact ⟨hm,
    (c7_volume_by_ticker_ranking [tx15, tx03]).1 ("AAPL", mkRat 2 1) hm⟩

end PortfolioInsights
